import Mathlib

/-
Verification of the siad storage core against its specification.

The development shallowly embeds the Go sources:
  * the MDM cost vector and its saturating subtraction (mdm cost file),
  * the MDM program cache of gained/removed sectors (modules/host/mdm/sectors.go),
  * the MDM instruction-execution loop (mdm program file),
  * the contract manager's sector and sub-sector maps (contractmanager sector file),
  * the renter's upload heap and its membership sets (modules/renter/uploadheap.go).

Machine integers (uint64) are embedded as Nat with explicit wraparound
modulo 2^64 where Go would wrap; Go maps are embedded as functions into
Option; Go slices as lists; fallible functions return Except or Option.
float64 health values are embedded as rationals: the embedded code only ever
compares them, and every comparison appearing in the claims is exact.
-/

namespace Siad

/-- U64 is the modulus of Go's uint64 arithmetic. -/
def U64 : ℕ := 2 ^ 64

/-- sub64 embeds Go's wrapping subtraction a - b on uint64 operands. -/
def sub64 (a b : ℕ) : ℕ :=
  (a % U64 + (U64 - b % U64)) % U64

/-- Cost describes the cost of executing an instruction on the MDM, split into
its five resource counterparts (all uint64 in the source). -/
structure Cost where
  Compute : ℕ
  DiskAccesses : ℕ
  DiskRead : ℕ
  DiskWrite : ℕ
  Memory : ℕ
deriving DecidableEq

/-- Cost.Sub embeds the source's Sub: the helper min subtracts and reports
underflow, and the source routes all five subtractions through the Compute
field of both operands. -/
def Cost.Sub (c c2 : Cost) : Cost × Bool :=
  let min : ℕ → ℕ → ℕ × Bool := fun a b => (sub64 a b, decide (b ≤ a))
  let p1 := min c.Compute c2.Compute
  let p2 := min c.Compute c2.Compute
  let p3 := min c.Compute c2.Compute
  let p4 := min c.Compute c2.Compute
  let p5 := min c.Compute c2.Compute
  (⟨p1.1, p2.1, p3.1, p4.1, p5.1⟩, p1.2 && p2.2 && p3.2 && p4.2 && p5.2)

/-- costSubSpec is the claim's intended per-field saturating subtraction: it
fails exactly when any of the five fields would underflow, and on success each
result field is the pointwise difference. Stated from the spec's words, for
comparison with the source's Cost.Sub. -/
def costSubSpec (c c2 : Cost) : Cost × Bool :=
  (⟨sub64 c.Compute c2.Compute, sub64 c.DiskAccesses c2.DiskAccesses,
    sub64 c.DiskRead c2.DiskRead, sub64 c.DiskWrite c2.DiskWrite,
    sub64 c.Memory c2.Memory⟩,
   decide (c2.Compute ≤ c.Compute) && decide (c2.DiskAccesses ≤ c.DiskAccesses) &&
   decide (c2.DiskRead ≤ c.DiskRead) && decide (c2.DiskWrite ≤ c.DiskWrite) &&
   decide (c2.Memory ≤ c.Memory))

/-! ## MDM program cache (modules/host/mdm/sectors.go)

Hashes (crypto.Hash) are embedded as Nat, sector data ([]byte) as List Nat.
The external crypto primitives crypto.MerkleRoot and cachedMerkleRoot are
opaque to this code and are passed in as function parameters. The
sectorsGained Go map is a function into Option. -/

/-- mapInsert updates a function-embedded Go map at one key. -/
def mapInsert {α : Type} (m : ℕ → Option α) (k : ℕ) (v : α) : ℕ → Option α :=
  fun x => if x = k then some v else m x

/-- mapErase removes one key from a function-embedded Go map. -/
def mapErase {α : Type} (m : ℕ → Option α) (k : ℕ) : ℕ → Option α :=
  fun x => if x = k then none else m x

/-- MDMSectors is the program cache: removed roots, gained sector data keyed
by root, and the contract's ordered list of merkle roots. -/
structure MDMSectors where
  sectorsRemoved : List ℕ
  sectorsGained : ℕ → Option (List ℕ)
  merkleRoots : List ℕ

/-- newSectors creates a program cache from an initial list of roots. -/
def newSectors (roots : List ℕ) : MDMSectors :=
  ⟨[], fun _ => none, roots⟩

/-- appendSector adds the data to the program cache under its merkle root,
appends the root to the contract roots, and returns the new contract root.
merkleRoot and cachedRoot stand for crypto.MerkleRoot and cachedMerkleRoot. -/
def appendSector (merkleRoot : List ℕ → ℕ) (cachedRoot : List ℕ → ℕ)
    (s : MDMSectors) (sectorData : List ℕ) : MDMSectors × ℕ :=
  let newRoot := merkleRoot sectorData
  let gained := mapInsert s.sectorsGained newRoot sectorData
  let roots := s.merkleRoots ++ [newRoot]
  (⟨s.sectorsRemoved, gained, roots⟩, cachedRoot roots)

/-- dropSectors drops the given number of trailing roots. The source computes
newNumSectors by uint64 subtraction with no guard and then slices; a
new length past the list's length is a Go slice-bounds panic, embedded as
none. Dropped roots present in the gained cache are net-zeroed out of it,
the others are appended to the removed list, in slice order. -/
def dropSectors (cachedRoot : List ℕ → ℕ) (s : MDMSectors)
    (numSectorsDropped : ℕ) : Option (MDMSectors × ℕ) :=
  let len := s.merkleRoots.length
  let newNumSectors := sub64 len numSectorsDropped
  if newNumSectors > len then
    none
  else
    let droppedRoots := s.merkleRoots.drop newNumSectors
    let roots := s.merkleRoots.take newNumSectors
    let gr := droppedRoots.foldl
      (fun (acc : (ℕ → Option (List ℕ)) × List ℕ) dropped =>
        match acc.1 dropped with
        | some _ => (mapErase acc.1 dropped, acc.2)
        | none => (acc.1, acc.2 ++ [dropped]))
      (s.sectorsGained, s.sectorsRemoved)
    some (⟨gr.2, gr.1, roots⟩, cachedRoot roots)

/-! ## MDM program execution (ExecuteProgram's instruction loop)

An instruction's Execute method takes the running contract merkle root and
returns an Output; only the output's error flag and new root matter to the
loop, so an instruction is embedded as a function from the root to the
output. The loop checks ctx.Done() in a select before each instruction, but
the break statement inside the select leaves only the select statement, not
the for loop, so in the compiled behaviour the check never stops execution;
the ctxDone argument is therefore dead in the control flow below, exactly as
in the source. Each output is sent on the channel before the error check, so
an erroring instruction's output is still emitted and then the loop stops. -/

/-- MDMOutput is the per-instruction output record: the new contract merkle
root and whether the Error field is non-nil. -/
structure MDMOutput where
  newMerkleRoot : ℕ
  error : Bool
deriving DecidableEq

/-- MDMInstruction embeds an instruction's Execute method. -/
def MDMInstruction : Type := ℕ → MDMOutput

/-- executeInstructions embeds the instruction loop of ExecuteProgram: the
select on ctx.Done() with its break is a no-op for the loop, every
instruction executes and emits its output, and the loop stops only after an
output carrying an error. -/
def executeInstructions (ctxDone : Bool) (fcRoot : ℕ) :
    List MDMInstruction → List MDMOutput
  | [] => []
  | i :: rest =>
    let output := i fcRoot
    if output.error then
      [output]
    else
      output :: executeInstructions ctxDone output.newMerkleRoot rest

/-! ## Contract manager sectors (contractmanager sector file)

crypto.Hash and sectorID are embedded as Nat. The salted-hash id derivation
managedSectorID and crypto.MerkleRoot are opaque primitives and live as
function fields of the ContractManager model. The sectorLocations and
subSectorLocations Go maps are functions into Option; a storage folder's
sector file is a byte-indexed function together with a flag for a failing
ReadAt. -/

/-- SectorSize is modules.SectorSize, 4 MiB. -/
def SectorSize : ℕ := 2 ^ 22

/-- CMErr enumerates the error kinds the embedded contract-manager code
distinguishes. -/
inductive CMErr where
  | notFound
  | outOfBounds
  | diskTrouble
  | noParent
deriving DecidableEq

/-- StorageFolder holds the sector file (as the byte at each absolute file
offset plus a flag for ReadAt failing) and the atomicUnavailable flag. -/
structure StorageFolder where
  byteAt : ℕ → ℕ
  readFails : Bool
  unavailable : Bool

/-- SectorLocation is the location of a physical sector: slot index, storage
folder index, virtual sector count, and the tracked sub-sector children. -/
structure SectorLocation where
  index : ℕ
  storageFolder : ℕ
  count : ℕ
  children : Finset ℕ
deriving DecidableEq

/-- SubSectorLocation is a sub-sector view: offset, length and parent id. -/
structure SubSectorLocation where
  offset : ℕ
  length : ℕ
  parent : ℕ
deriving DecidableEq

/-- ContractManager is the in-memory state relevant to the sector read and
sub-sector paths: the primary and sub-sector location maps, the storage
folders, and the opaque crypto primitives (managedSectorID as idFn,
crypto.MerkleRoot as merkleFn). -/
structure ContractManager where
  idFn : ℕ → ℕ
  merkleFn : List ℕ → ℕ
  storageFolders : ℕ → Option StorageFolder
  sectorLocations : ℕ → Option SectorLocation
  subSectorLocations : ℕ → Option (List SubSectorLocation)

/-- readPartialSector reads length bytes at offset within the sector at the
given index of a folder's sector file: out-of-bounds reads past the sector
boundary are rejected, a failing ReadAt is an extended read error. -/
def readPartialSector (sf : StorageFolder) (sectorIndex offset length : ℕ) :
    Except CMErr (List ℕ) :=
  if offset + length > SectorSize then
    Except.error CMErr.outOfBounds
  else if sf.readFails then
    Except.error CMErr.diskTrouble
  else
    Except.ok ((List.range length).map fun k =>
      sf.byteAt (sectorIndex * SectorSize + offset + k))

/-- managedReadPartialSector reads from the folder recorded in the sector
location: a missing folder is a critical invariant violation surfaced as
ErrSectorNotFound, an unavailable folder is also surfaced as
ErrSectorNotFound, and a read error is surfaced after counting the failed
read (the atomic counters are monitoring only and are not modelled). -/
def managedReadPartialSector (cm : ContractManager) (sl : SectorLocation)
    (offset length : ℕ) : Except CMErr (List ℕ) :=
  match cm.storageFolders sl.storageFolder with
  | none => Except.error CMErr.notFound
  | some sf =>
    if sf.unavailable then
      Except.error CMErr.notFound
    else
      readPartialSector sf sl.index offset length

/-- ReadSector embeds the source's ReadSector: an id in neither map is
ErrSectorNotFound; a present sub-sector entry (even alongside a primary
entry, which the source only logs as Critical) resolves through the first
listed sub-sector's parent, with a missing parent an error of its own; only
an id found solely in the primary map reads the full sector at its recorded
location. -/
def ReadSector (cm : ContractManager) (root : ℕ) : Except CMErr (List ℕ) :=
  let i := cm.idFn root
  match cm.sectorLocations i, cm.subSectorLocations i with
  | none, none => Except.error CMErr.notFound
  | _, some [] => Except.error CMErr.noParent
  | _, some (ssl :: _) =>
    match cm.sectorLocations ssl.parent with
    | none => Except.error CMErr.noParent
    | some sslParent => managedReadPartialSector cm sslParent ssl.offset ssl.length
  | some sl, none => managedReadPartialSector cm sl 0 SectorSize

/-- deleteSector removes a sector location, and for every child recorded on
it drops the sub-sector entries that referenced the deleted parent, deleting
a child's map entry outright when its list becomes empty. -/
def deleteSector (cm : ContractManager) (id : ℕ) : ContractManager :=
  match cm.sectorLocations id with
  | none => cm
  | some sl =>
    { cm with
      subSectorLocations := fun c =>
        if c ∈ sl.children then
          match cm.subSectorLocations c with
          | none => none
          | some ssls =>
            let newSSLs := ssls.filter fun ssl => ssl.parent ≠ id
            if newSSLs = [] then none else some newSSLs
        else cm.subSectorLocations c,
      sectorLocations := mapErase cm.sectorLocations id }

/-- SetSubSector reads the requested range from the parent sector, derives
the sub-sector's root and id, appends a sub-sector location under that id
and records the id in the parent's children set; a missing parent or a
failed read changes nothing. -/
def SetSubSector (cm : ContractManager) (root offset length : ℕ) :
    ContractManager × Except CMErr ℕ :=
  let id := cm.idFn root
  match cm.sectorLocations id with
  | none => (cm, Except.error CMErr.notFound)
  | some sl =>
    match managedReadPartialSector cm sl offset length with
    | Except.error e => (cm, Except.error e)
    | Except.ok data =>
      let subRoot := cm.merkleFn data
      let subID := cm.idFn subRoot
      let prev := (cm.subSectorLocations subID).getD []
      ({ cm with
         subSectorLocations :=
           mapInsert cm.subSectorLocations subID (prev ++ [⟨offset, length, id⟩]),
         sectorLocations :=
           mapInsert cm.sectorLocations id { sl with children := insert subID sl.children } },
       Except.ok subRoot)

/-- addSector, state part. Modelled from the spec: the source of the
contract manager's AddSector is not under src (only its callers are); per
the spec, add_sector increments the virtual count of an existing id, failing
with VirtualSectorLimit (and changing nothing) when the count would exceed
2^16, and otherwise inserts a fresh location with count 1 and no children at
a storage-folder slot; the folder and slot choice is represented by explicit
parameters. -/
def addSector (cm : ContractManager) (root folder slot : ℕ) : ContractManager :=
  let id := cm.idFn root
  match cm.sectorLocations id with
  | some sl =>
    if sl.count < 2 ^ 16 then
      { cm with sectorLocations := mapInsert cm.sectorLocations id { sl with count := sl.count + 1 } }
    else
      cm
  | none =>
    { cm with sectorLocations := mapInsert cm.sectorLocations id ⟨slot, folder, 1, ∅⟩ }

/-- CMOp is one contract-manager operation of the reachability model. -/
inductive CMOp where
  | addSec (root folder slot : ℕ)
  | setSub (root offset length : ℕ)
  | delSec (id : ℕ)

/-- cmStep applies one operation to the contract-manager state. -/
def cmStep (cm : ContractManager) : CMOp → ContractManager
  | CMOp.addSec root folder slot => addSector cm root folder slot
  | CMOp.setSub root offset length => (SetSubSector cm root offset length).1
  | CMOp.delSec id => deleteSector cm id

/-- cmExec applies a sequence of operations in order. -/
def cmExec (cm : ContractManager) (ops : List CMOp) : ContractManager :=
  ops.foldl cmStep cm

/-- initCM is the contract manager with empty maps. -/
def initCM (idFn : ℕ → ℕ) (merkleFn : List ℕ → ℕ)
    (folders : ℕ → Option StorageFolder) : ContractManager :=
  ⟨idFn, merkleFn, folders, fun _ => none, fun _ => none⟩

/-- CMInv is the sub-sector bookkeeping invariant: every stored sub-sector
list is non-empty, and each of its entries points at a live parent that
records the child in its children set. -/
def CMInv (cm : ContractManager) : Prop :=
  ∀ c ssls, cm.subSectorLocations c = some ssls →
    ssls ≠ [] ∧ ∀ ssl ∈ ssls, ∃ sl,
      cm.sectorLocations ssl.parent = some sl ∧ c ∈ sl.children

/-! ## Renter upload heap (modules/renter/uploadheap.go)

An unfinished upload chunk is embedded by the fields the heap consults: its
id (uploadChunkID as Nat), the priority and stuck flags, and the float64
health as a rational (the heap only compares healths). The heap slice is a
list manipulated by Go's container/heap algorithm, embedded below with a
fuel argument bounding the sift loops; every use supplies fuel at least the
list length, which the loops never exhaust. -/

/-- UnfinishedUploadChunk carries the fields of unfinishedUploadChunk that
the upload heap reads. -/
structure UnfinishedUploadChunk where
  id : ℕ
  priority : Bool
  stuck : Bool
  health : ℚ
deriving DecidableEq

/-- dummyChunk is the default element for out-of-range list indexing; the
embedded heap code never actually indexes out of range. -/
def dummyChunk : UnfinishedUploadChunk := ⟨0, false, false, 0⟩

/-- uploadChunkHeapLess embeds uploadChunkHeap.Less: a sole high-priority
chunk first, then within equal stuck status the worse (higher) health, and
otherwise the stuck chunk first. -/
def uploadChunkHeapLess (x y : UnfinishedUploadChunk) : Bool :=
  if x.priority && !y.priority then true
  else if !x.priority && y.priority then false
  else if x.stuck = y.stuck then decide (x.health > y.health)
  else if x.stuck then true
  else false

/-- specRanksHigher states the spec's three ranking rules in its own words,
for comparison with the source's Less: if exactly one of the two has
priority it ranks higher; else if the stuck flags agree the higher health
ranks higher; else the stuck chunk ranks higher. -/
def specRanksHigher (a b : UnfinishedUploadChunk) : Bool :=
  if a.priority ≠ b.priority then a.priority
  else if a.stuck = b.stuck then decide (a.health > b.health)
  else a.stuck

/-- listSwap exchanges the elements at two indices. -/
def listSwap (l : List UnfinishedUploadChunk) (i j : ℕ) : List UnfinishedUploadChunk :=
  (l.set i (l.getD j dummyChunk)).set j (l.getD i dummyChunk)

/-- upHeapGo embeds container/heap's up: sift the element at index j towards
the root while it is Less than its parent. Fuel bounds the loop; j strictly
decreases, so fuel j + 1 is never exhausted. -/
def upHeapGo (less : UnfinishedUploadChunk → UnfinishedUploadChunk → Bool) :
    ℕ → List UnfinishedUploadChunk → ℕ → List UnfinishedUploadChunk
  | 0, l, _ => l
  | fuel + 1, l, j =>
    let i := (j - 1) / 2
    if i = j || !(less (l.getD j dummyChunk) (l.getD i dummyChunk)) then l
    else upHeapGo less fuel (listSwap l i j) i

/-- downHeapGo embeds container/heap's down restricted to n elements: sift
the element at index i towards the leaves, swapping with its lesser child.
Fuel bounds the loop; i strictly increases below n, so fuel n is never
exhausted. -/
def downHeapGo (less : UnfinishedUploadChunk → UnfinishedUploadChunk → Bool) :
    ℕ → List UnfinishedUploadChunk → ℕ → ℕ → List UnfinishedUploadChunk
  | 0, l, _, _ => l
  | fuel + 1, l, i, n =>
    let j1 := 2 * i + 1
    if j1 ≥ n then l
    else
      let j2 := j1 + 1
      let j := if j2 < n && less (l.getD j2 dummyChunk) (l.getD j1 dummyChunk) then j2 else j1
      if !(less (l.getD j dummyChunk) (l.getD i dummyChunk)) then l
      else downHeapGo less fuel (listSwap l i j) j n

/-- heapPushGo embeds heap.Push: append the element, then sift it up from
the last index. -/
def heapPushGo (less : UnfinishedUploadChunk → UnfinishedUploadChunk → Bool)
    (l : List UnfinishedUploadChunk) (x : UnfinishedUploadChunk) :
    List UnfinishedUploadChunk :=
  upHeapGo less (l.length + 1) (l ++ [x]) l.length

/-- heapPopGo embeds heap.Pop on a non-empty heap: swap the root with the
last element, sift the new root down within the first n elements, and
remove and return the last element. -/
def heapPopGo (less : UnfinishedUploadChunk → UnfinishedUploadChunk → Bool)
    (l : List UnfinishedUploadChunk) : UnfinishedUploadChunk × List UnfinishedUploadChunk :=
  let n := l.length - 1
  let l1 := listSwap l 0 n
  let l2 := downHeapGo less l.length l1 0 n
  (l2.getD n dummyChunk, l2.take n)

/-- UploadHeap is the heap slice plus the three membership sets of chunk
ids (the Go struct-valued maps are embedded as Finsets of their keys). -/
structure UploadHeap where
  heap : List UnfinishedUploadChunk
  repairingChunks : Finset ℕ
  stuckHeapChunks : Finset ℕ
  unstuckHeapChunks : Finset ℕ
deriving DecidableEq

/-- emptyUploadHeap is the upload heap with no chunks tracked. -/
def emptyUploadHeap : UploadHeap := ⟨[], ∅, ∅, ∅⟩

/-- managedPush embeds uploadHeap.managedPush with the stuck cap
maxStuckChunksInHeap as the parameter cap (its value is configured outside
these sources): a stuck chunk is admitted when its id is in neither the
stuck set nor the repairing set and the stuck set is below the cap; an
unstuck chunk when its id is in neither the unstuck set nor the repairing
set; anything else is rejected unchanged. -/
def managedPush (cap : ℕ) (uh : UploadHeap) (uuc : UnfinishedUploadChunk) :
    Bool × UploadHeap :=
  let chunkStuck := uuc.stuck
  let existsUnstuckHeap := decide (uuc.id ∈ uh.unstuckHeapChunks)
  let existsRepairing := decide (uuc.id ∈ uh.repairingChunks)
  let existsStuckHeap := decide (uuc.id ∈ uh.stuckHeapChunks)
  let canAddStuckChunk :=
    chunkStuck && !existsStuckHeap && !existsRepairing &&
      decide (uh.stuckHeapChunks.card < cap)
  let canAddUnstuckChunk := !chunkStuck && !existsUnstuckHeap && !existsRepairing
  if canAddStuckChunk then
    (true, { uh with
      stuckHeapChunks := insert uuc.id uh.stuckHeapChunks,
      heap := heapPushGo uploadChunkHeapLess uh.heap uuc })
  else if canAddUnstuckChunk then
    (true, { uh with
      unstuckHeapChunks := insert uuc.id uh.unstuckHeapChunks,
      heap := heapPushGo uploadChunkHeapLess uh.heap uuc })
  else
    (false, uh)

/-- managedPop embeds uploadHeap.managedPop: on a non-empty heap it pops a
chunk, removes its id from both heap membership sets and adds it to the
repairing set (the source's Critical check on a repairing id changes no
state). -/
def managedPop (uh : UploadHeap) : Option UnfinishedUploadChunk × UploadHeap :=
  if uh.heap.length > 0 then
    let p := heapPopGo uploadChunkHeapLess uh.heap
    (some p.1, { uh with
      heap := p.2,
      unstuckHeapChunks := uh.unstuckHeapChunks.erase p.1.id,
      stuckHeapChunks := uh.stuckHeapChunks.erase p.1.id,
      repairingChunks := insert p.1.id uh.repairingChunks })
  else
    (none, uh)

/-- managedMarkRepairDone embeds uploadHeap.managedMarkRepairDone: remove
the id from the repairing set (the sanity check on a missing id is a
Critical log only). -/
def managedMarkRepairDone (uh : UploadHeap) (id : ℕ) : UploadHeap :=
  { uh with repairingChunks := uh.repairingChunks.erase id }

/-- HeapOp is one upload-heap call of the reachability model. -/
inductive HeapOp where
  | push (uuc : UnfinishedUploadChunk)
  | pop
  | markDone (id : ℕ)

/-- heapStep applies one upload-heap call. -/
def heapStep (cap : ℕ) (uh : UploadHeap) : HeapOp → UploadHeap
  | HeapOp.push uuc => (managedPush cap uh uuc).2
  | HeapOp.pop => (managedPop uh).2
  | HeapOp.markDone id => managedMarkRepairDone uh id

/-- heapExec applies a sequence of upload-heap calls to the empty heap. -/
def heapExec (cap : ℕ) (ops : List HeapOp) : UploadHeap :=
  ops.foldl (heapStep cap) emptyUploadHeap

/-- HeapInv states that the repairing set is disjoint from both heap
membership sets. -/
def HeapInv (uh : UploadHeap) : Prop :=
  ∀ i ∈ uh.repairingChunks, i ∉ uh.unstuckHeapChunks ∧ i ∉ uh.stuckHeapChunks

/-- pushSeq pushes a list of chunks in order, dropping the success flags. -/
def pushSeq (cap : ℕ) (uh : UploadHeap) (cs : List UnfinishedUploadChunk) : UploadHeap :=
  cs.foldl (fun s c => (managedPush cap s c).2) uh

/-- popSeq pops n times, collecting the returned chunks in order. -/
def popSeq (uh : UploadHeap) : ℕ → List UnfinishedUploadChunk
  | 0 => []
  | n + 1 =>
    match managedPop uh with
    | (some c, uh2) => c :: popSeq uh2 n
    | (none, _) => []

/-! ## Concrete inputs used by the scenario theorems -/

/-- chunkA is scenario chunk A: priority false, stuck false, health 0.8. -/
def chunkA : UnfinishedUploadChunk := ⟨1, false, false, mkRat 8 10⟩

/-- chunkB is scenario chunk B: priority false, stuck false, health 0.6. -/
def chunkB : UnfinishedUploadChunk := ⟨2, false, false, mkRat 6 10⟩

/-- chunkC is scenario chunk C: priority true, stuck false, health 0.1. -/
def chunkC : UnfinishedUploadChunk := ⟨3, true, false, mkRat 1 10⟩

/-- chunkS1 is scenario chunk S1: priority false, stuck true, health 0.3. -/
def chunkS1 : UnfinishedUploadChunk := ⟨1, false, true, mkRat 3 10⟩

/-- chunkU1 is scenario chunk U1: priority false, stuck false, health 0.9. -/
def chunkU1 : UnfinishedUploadChunk := ⟨2, false, false, mkRat 9 10⟩

/-- chunkXUnstuck is a chunk with id 7 pushed while unstuck. -/
def chunkXUnstuck : UnfinishedUploadChunk := ⟨7, false, false, mkRat 1 2⟩

/-- chunkXStuck is the same chunk id 7 pushed again after being marked stuck. -/
def chunkXStuck : UnfinishedUploadChunk := ⟨7, false, true, mkRat 1 2⟩

/-- pushedOnceState is the heap after pushing chunk id 7 as unstuck onto the
empty heap, with the stuck cap at 3. -/
def pushedOnceState : UploadHeap := (managedPush 3 emptyUploadHeap chunkXUnstuck).2

/-- Equality of embedded results is decidable. -/
instance exceptDecEq {ε α : Type} [DecidableEq ε] [DecidableEq α] :
    DecidableEq (Except ε α) := fun x y =>
  match x, y with
  | Except.ok a, Except.ok b =>
    if h : a = b then Decidable.isTrue (by rw [h])
    else Decidable.isFalse (by intro hc; cases hc; exact h rfl)
  | Except.error a, Except.error b =>
    if h : a = b then Decidable.isTrue (by rw [h])
    else Decidable.isFalse (by intro hc; cases hc; exact h rfl)
  | Except.ok _, Except.error _ => Decidable.isFalse (by intro hc; cases hc)
  | Except.error _, Except.ok _ => Decidable.isFalse (by intro hc; cases hc)

/-- cmDual is a contract manager whose id 5 sits in both the primary map
(at folder 0, slot 0) and the sub-sector map (offset 1, length 2, parent
9); folder 0 is available and its sector file holds byte n at offset n. -/
def cmDual : ContractManager :=
  { idFn := fun n => n,
    merkleFn := fun _ => 0,
    storageFolders := fun k => if k = 0 then some ⟨fun n => n, false, false⟩ else none,
    sectorLocations := fun k =>
      if k = 5 then some ⟨0, 0, 1, ∅⟩ else if k = 9 then some ⟨0, 0, 1, ∅⟩ else none,
    subSectorLocations := fun k => if k = 5 then some [⟨1, 2, 9⟩] else none }

/-- exFolders has one available storage folder, index 0, whose sector file
reads as all zeros. -/
def exFolders : ℕ → Option StorageFolder :=
  fun k => if k = 0 then some ⟨fun _ => 0, false, false⟩ else none

/-- exOps adds sectors with roots 1 and 2 and registers one sub-sector on
each; with the identity id derivation and a constant merkle root of 100,
both sub-sectors land under child id 100, one per parent. -/
def exOps : List CMOp :=
  [CMOp.addSec 1 0 0, CMOp.addSec 2 0 1, CMOp.setSub 1 0 1, CMOp.setSub 2 0 1]

/-- exCM is the contract manager reached by exOps from the empty state. -/
def exCM : ContractManager := cmExec (initCM (fun n => n) (fun _ => 100) exFolders) exOps

/-! ## Theorems -/

/-- For in-range operands with no underflow, sub64 is plain subtraction. -/
theorem sub64_of_le (a b : ℕ) (ha : a < U64) (h : b ≤ a) : sub64 a b = a - b := by
  have hb : b < U64 := lt_of_le_of_lt h ha
  unfold sub64
  rw [Nat.mod_eq_of_lt ha, Nat.mod_eq_of_lt hb]
  have h1 : a + (U64 - b) = (a - b) + U64 := by omega
  rw [h1, Nat.add_mod_right, Nat.mod_eq_of_lt (by omega)]

/-- For in-range operands that would underflow, sub64 wraps past the minuend. -/
theorem sub64_of_gt (a b : ℕ) (ha : a < U64) (hb : b < U64) (h : a < b) :
    sub64 a b = a + U64 - b := by
  unfold sub64
  rw [Nat.mod_eq_of_lt ha, Nat.mod_eq_of_lt hb]
  have h1 : a + (U64 - b) = a + U64 - b := by omega
  rw [h1, Nat.mod_eq_of_lt (by omega)]

/-! ## C1 -/

/-- C1: the claim says Cost.Sub subtracts per field and fails exactly when
any of the five fields would underflow. The source instead routes all five
subtractions through the Compute field: at c = (5,0,0,0,0) and
d = (3,2,0,0,0) it returns ok = true and the result (2,2,2,2,2), although
d's DiskAccesses exceeds c's, so the intended per-field subtraction (also
stated here as costSubSpec) underflows and must fail. The code contradicts
its own doc comment and the spec, which calls the routing a typo. -/
theorem cost_sub_routes_all_fields_through_compute :
    Cost.Sub ⟨5, 0, 0, 0, 0⟩ ⟨3, 2, 0, 0, 0⟩ = (⟨2, 2, 2, 2, 2⟩, true) ∧
    (costSubSpec ⟨5, 0, 0, 0, 0⟩ ⟨3, 2, 0, 0, 0⟩).2 = false ∧
    (⟨3, 2, 0, 0, 0⟩ : Cost).DiskAccesses > (⟨5, 0, 0, 0, 0⟩ : Cost).DiskAccesses := by
  refine ⟨by decide, by decide, by decide⟩

/-! ## C6 -/

/-- C6: the claim says that once the cancellation signal is set, no
instruction past the next between-instructions check executes and no
further output is emitted. In the source the check is a select on
ctx.Done() whose break leaves only the select statement, never the for
loop, so the compiled loop executes every instruction regardless: with the
signal set from the start, a one-instruction program still executes the
instruction and emits its output instead of emitting nothing. -/
theorem cancelled_program_still_executes_instructions :
    executeInstructions true 0 [fun r => ⟨r + 1, false⟩] = [⟨1, false⟩] ∧
    ([⟨1, false⟩] : List MDMOutput) ≠ [] := by
  refine ⟨by decide, by decide⟩

/-! ## C3 -/

/-- C3: the upload heap ranks chunks exactly by the spec's three rules —
the source's Less agrees with specRanksHigher on every pair of chunks —
and pushing A(false, false, 0.8), B(false, false, 0.6), C(true, false, 0.1)
onto the empty heap pops them in the order C, A, B. -/
theorem upload_heap_ranking_matches_spec :
    (∀ a b, uploadChunkHeapLess a b = specRanksHigher a b) ∧
    popSeq (pushSeq 3 emptyUploadHeap [chunkA, chunkB, chunkC]) 3 = [chunkC, chunkA, chunkB] := by
  constructor
  · intro a b
    unfold uploadChunkHeapLess specRanksHigher
    cases hp : a.priority <;> cases hq : b.priority <;> simp
  · decide

/-! ## C4 -/

/-- C4 counterexample: the claim says pushing S1(false, true, 0.3) and
U1(false, false, 0.9) onto the empty heap pops U1 first; the source's Less
makes a stuck chunk outrank an unstuck one whenever their priority flags
agree (health is only compared between chunks with equal stuck status), so
the pop order is S1, U1, not U1, S1. -/
theorem stuck_outranks_unstuck_pop_order_counterexample :
    popSeq (pushSeq 3 emptyUploadHeap [chunkS1, chunkU1]) 2 ≠ [chunkU1, chunkS1] := by
  decide

/-- C4 amended: pushing exactly S1(false, true, 0.3) and U1(false, false,
0.9) onto the empty upload heap pops S1 first and then U1: with equal
priority flags and differing stuck status the stuck chunk ranks higher
regardless of health. -/
theorem stuck_outranks_unstuck_pop_order :
    popSeq (pushSeq 3 emptyUploadHeap [chunkS1, chunkU1]) 2 = [chunkS1, chunkU1] := by
  decide

/-! ## C2 -/

/-- C2 counterexample: pushing chunk id 7 as unstuck and then pushing the
same id again as stuck is accepted — the second managedPush returns true —
and leaves id 7 in both unstuckHeapChunks and stuckHeapChunks at once,
because the stuck admission check never consults the unstuck set (nor the
other way round). This refutes both parts of the claim: an id can belong to
two of the three membership sets, and managedPush does not return false for
the addition that put it there. -/
theorem heap_set_exclusivity_counterexample :
    (managedPush 3 pushedOnceState chunkXStuck).1 = true ∧
    7 ∈ (managedPush 3 pushedOnceState chunkXStuck).2.unstuckHeapChunks ∧
    7 ∈ (managedPush 3 pushedOnceState chunkXStuck).2.stuckHeapChunks := by
  refine ⟨by decide, by decide, by decide⟩

/-- managedPush preserves the repairing-disjointness invariant. -/
theorem heapInv_push (cap : ℕ) (uh : UploadHeap) (c : UnfinishedUploadChunk)
    (h : HeapInv uh) : HeapInv (managedPush cap uh c).2 := by
  unfold managedPush
  dsimp only
  split
  next hcond =>
    simp only [Bool.and_eq_true, Bool.not_eq_true', decide_eq_false_iff_not,
      decide_eq_true_eq] at hcond
    intro i hi
    obtain ⟨hiu, his⟩ := h i hi
    refine ⟨hiu, ?_⟩
    simp only [Finset.mem_insert, not_or]
    exact ⟨fun hii => hcond.1.2 (hii ▸ hi), his⟩
  next _ =>
    split
    next hcond =>
      simp only [Bool.and_eq_true, Bool.not_eq_true', decide_eq_false_iff_not,
        decide_eq_true_eq] at hcond
      intro i hi
      obtain ⟨hiu, his⟩ := h i hi
      refine ⟨?_, his⟩
      simp only [Finset.mem_insert, not_or]
      exact ⟨fun hii => hcond.2 (hii ▸ hi), hiu⟩
    next _ => exact h

/-- managedPop preserves the repairing-disjointness invariant. -/
theorem heapInv_pop (uh : UploadHeap) (h : HeapInv uh) : HeapInv (managedPop uh).2 := by
  unfold managedPop
  split
  next _ =>
    intro i hi
    simp only [Finset.mem_insert] at hi
    rcases hi with rfl | hi
    · exact ⟨Finset.not_mem_erase _ _, Finset.not_mem_erase _ _⟩
    · obtain ⟨h1, h2⟩ := h i hi
      exact ⟨fun hc => h1 (Finset.mem_of_mem_erase hc),
             fun hc => h2 (Finset.mem_of_mem_erase hc)⟩
  next _ => exact h

/-- managedMarkRepairDone preserves the repairing-disjointness invariant. -/
theorem heapInv_markDone (uh : UploadHeap) (id : ℕ) (h : HeapInv uh) :
    HeapInv (managedMarkRepairDone uh id) := by
  intro i hi
  exact h i (Finset.mem_of_mem_erase hi)

/-- Every single upload-heap call preserves the invariant. -/
theorem heapInv_step (cap : ℕ) (uh : UploadHeap) (op : HeapOp) (h : HeapInv uh) :
    HeapInv (heapStep cap uh op) := by
  cases op with
  | push uuc => exact heapInv_push cap uh uuc h
  | pop => exact heapInv_pop uh h
  | markDone id => exact heapInv_markDone uh id h

/-- Folding any call sequence from an invariant state stays invariant. -/
theorem heapInv_foldl (cap : ℕ) (ops : List HeapOp) :
    ∀ uh, HeapInv uh → HeapInv (ops.foldl (heapStep cap) uh) := by
  induction ops with
  | nil => exact fun uh h => h
  | cons op rest ih => exact fun uh h => ih _ (heapInv_step cap uh op h)

/-- C2 amended: in every state reachable from the empty upload heap by
managedPush, managedPop and managedMarkRepairDone calls (for any stuck cap),
the repairingChunks set is disjoint from both unstuckHeapChunks and
stuckHeapChunks — an id is in at most one of repairingChunks and the heap
sets. Exclusivity between the two heap sets themselves does not hold: an id
pushed once as unstuck and again as stuck is accepted into both, with the
second managedPush returning true. -/
theorem repairing_disjoint_from_heap_sets (cap : ℕ) (ops : List HeapOp) :
    HeapInv (heapExec cap ops) := by
  refine heapInv_foldl cap ops emptyUploadHeap ?_
  intro i hi
  cases hi

/-! ## C10 -/

/-- C10: whenever managedPush returns false it has modified nothing — the
heap slice and all three membership sets of the returned state are exactly
the input state's. -/
theorem push_failure_leaves_state_unchanged (cap : ℕ) (uh : UploadHeap)
    (c : UnfinishedUploadChunk) (h : (managedPush cap uh c).1 = false) :
    (managedPush cap uh c).2 = uh := by
  revert h
  unfold managedPush
  dsimp only
  split
  next _ => intro h; cases h
  next _ =>
    split
    next _ => intro h; cases h
    next _ => intro _; rfl

/-- C10 witness: re-pushing chunk id 7 (unstuck) onto the heap that already
holds id 7 in its unstuck set fails and returns the state unchanged. -/
theorem push_failure_leaves_state_unchanged_witness :
    (managedPush 3 pushedOnceState chunkXUnstuck).1 = false ∧
    (managedPush 3 pushedOnceState chunkXUnstuck).2 = pushedOnceState := by
  exact ⟨by decide, push_failure_leaves_state_unchanged 3 pushedOnceState chunkXUnstuck (by decide)⟩

/-! ## C7 and C9 -/

/-- sub64 of a positive in-range successor by one is the predecessor. -/
theorem sub64_succ_one (n : ℕ) (h : n < U64) : sub64 (n + 1) 1 = n := by
  rcases eq_or_lt_of_le (Nat.succ_le_of_lt h) with he | hl
  · have he2 : n + 1 = U64 := he
    unfold sub64
    rw [he2, Nat.mod_self, Nat.mod_eq_of_lt (show 1 < U64 by decide)]
    rw [Nat.zero_add, Nat.mod_eq_of_lt (by omega)]
    omega
  · have hl2 : n + 1 < U64 := hl
    rw [sub64_of_le _ _ hl2 (by omega)]
    omega

/-- C7: appending a sector and then dropping one sector is a net-zero
round trip on the program cache: the resulting state has the prior
merkleRoots sequence (so the returned contract root is the cached root of
the prior sequence), the prior removed list, and a gained cache that is the
insert-then-erase of the appended data's root — in particular the appended
root is absent from it, as the second conjunct states. merkleRoot and
cachedRoot stand for the opaque crypto primitives. -/
theorem append_then_drop_restores_cache (mr cr : List ℕ → ℕ) (s : MDMSectors)
    (d : List ℕ) (h : s.merkleRoots.length < U64) :
    dropSectors cr (appendSector mr cr s d).1 1 =
      some (⟨s.sectorsRemoved,
             mapErase (mapInsert s.sectorsGained (mr d) d) (mr d),
             s.merkleRoots⟩, cr s.merkleRoots) ∧
    mapErase (mapInsert s.sectorsGained (mr d) d) (mr d) (mr d) = none := by
  constructor
  · unfold appendSector dropSectors
    dsimp only
    rw [List.length_append, List.length_singleton, sub64_succ_one _ h]
    rw [if_neg (by omega)]
    rw [List.drop_left, List.take_left]
    simp [mapInsert]
  · simp [mapErase]

/-- C7 witness: appending data (5, 6) to the empty cache under merkle
primitives taking a data list to its head plus seven and a roots list to
its length, then dropping one sector, returns exactly the empty cache
state. -/
theorem append_then_drop_restores_cache_witness :
    (newSectors []).merkleRoots.length < U64 ∧
    dropSectors (fun l => l.length)
        (appendSector (fun l => l.headD 0 + 7) (fun l => l.length) (newSectors []) [5, 6]).1 1 =
      some (⟨(newSectors []).sectorsRemoved,
             mapErase (mapInsert (newSectors []).sectorsGained 12 [5, 6]) 12,
             (newSectors []).merkleRoots⟩, 0) := by
  refine ⟨by decide, ?_⟩
  exact (append_then_drop_restores_cache (fun l => l.headD 0 + 7) (fun l => l.length)
    (newSectors []) [5, 6] (by decide)).1

/-- C9: dropSectors n is total exactly under the precondition that n does
not exceed the current number of roots: within bounds the uint64 length
subtraction and the two slicings stay in range and the new roots sequence
is the prefix of length (length - n); past bounds the unguarded uint64
subtraction wraps and the slice bound exceeds the slice length, a Go
slice-bounds panic. -/
theorem dropSectors_total_iff_in_bounds (cr : List ℕ → ℕ) (s : MDMSectors) (n : ℕ)
    (hlen : s.merkleRoots.length < U64) (hn : n < U64) :
    (n ≤ s.merkleRoots.length →
      (dropSectors cr s n).map (fun p => p.1.merkleRoots) =
        some (s.merkleRoots.take (s.merkleRoots.length - n))) ∧
    (s.merkleRoots.length < n → dropSectors cr s n = none) := by
  constructor
  · intro hle
    unfold dropSectors
    dsimp only
    rw [sub64_of_le _ _ hlen hle, if_neg (by omega)]
    rfl
  · intro hgt
    unfold dropSectors
    dsimp only
    rw [sub64_of_gt _ _ hlen hn hgt, if_pos (by omega)]

/-- C9 witness: on a three-root cache, dropping one sector keeps the first
two roots, while dropping five sectors is the out-of-bounds panic case. -/
theorem dropSectors_total_iff_in_bounds_witness :
    ((3 : ℕ) < U64 ∧ (1 : ℕ) ≤ 3 ∧ (3 : ℕ) < 5) ∧
    (dropSectors (fun l => l.length) ⟨[], fun _ => none, [10, 20, 30]⟩ 1).map
        (fun p => p.1.merkleRoots) = some (([10, 20, 30] : List ℕ).take (3 - 1)) ∧
    dropSectors (fun l => l.length) ⟨[], fun _ => none, [10, 20, 30]⟩ 5 = none := by
  refine ⟨⟨by decide, by decide, by decide⟩, ?_, ?_⟩
  · exact (dropSectors_total_iff_in_bounds (fun l => l.length)
      ⟨[], fun _ => none, [10, 20, 30]⟩ 1 (by decide) (by decide)).1 (by decide)
  · exact (dropSectors_total_iff_in_bounds (fun l => l.length)
      ⟨[], fun _ => none, [10, 20, 30]⟩ 5 (by decide) (by decide)).2 (by decide)

/-! ## C5 -/

/-- C5 counterexample: the claim says ReadSector reads the full sector at
the recorded location whenever the derived id is in the primary map. In
cmDual the id is in the primary map, yet ReadSector resolves through the
sub-sector entry and returns the two bytes at offset 1 of the parent, not
the full 4 MiB read of the primary location (the two results differ in
length). -/
theorem read_sector_dual_presence_counterexample :
    cmDual.sectorLocations (cmDual.idFn 5) = some ⟨0, 0, 1, ∅⟩ ∧
    ReadSector cmDual 5 = Except.ok [1, 2] ∧
    ReadSector cmDual 5 ≠ managedReadPartialSector cmDual ⟨0, 0, 1, ∅⟩ 0 SectorSize := by
  refine ⟨by decide, by decide, ?_⟩
  have h2 : ReadSector cmDual 5 = Except.ok [1, 2] := by decide
  have hr : managedReadPartialSector cmDual ⟨0, 0, 1, ∅⟩ 0 SectorSize =
      Except.ok ((List.range SectorSize).map fun k => (0 : ℕ) * SectorSize + 0 + k) := by
    rfl
  intro h
  rw [h2, hr] at h
  have h3 := Except.ok.inj h
  have h4 := congrArg List.length h3
  rw [List.length_map, List.length_range] at h4
  exact absurd h4 (by decide)

/-- C5 amended: ReadSector reads the full 4 MiB sector at the recorded
location exactly when the derived id is in the primary map and absent from
the sub-sector map; whenever a sub-sector entry for the id exists — even
alongside a primary entry, which the source only logs about — it resolves
through the first listed sub-sector's parent and reads its
(offset, offset + length) range, erring when that parent is absent (or the
entry list empty); and it fails with NotFound when the id is in neither
map. (A NotFound failure also arises inside the read itself when the
resolved location's storage folder is missing or unavailable, which is why
presence in a map alone does not guarantee a successful read.) -/
theorem readSector_characterization (cm : ContractManager) (root : ℕ) :
    (∀ sl, cm.sectorLocations (cm.idFn root) = some sl →
      cm.subSectorLocations (cm.idFn root) = none →
      ReadSector cm root = managedReadPartialSector cm sl 0 SectorSize) ∧
    (∀ ssl rest psl, cm.subSectorLocations (cm.idFn root) = some (ssl :: rest) →
      cm.sectorLocations ssl.parent = some psl →
      ReadSector cm root = managedReadPartialSector cm psl ssl.offset ssl.length) ∧
    (∀ ssl rest, cm.subSectorLocations (cm.idFn root) = some (ssl :: rest) →
      cm.sectorLocations ssl.parent = none →
      ReadSector cm root = Except.error CMErr.noParent) ∧
    (cm.subSectorLocations (cm.idFn root) = some [] →
      ReadSector cm root = Except.error CMErr.noParent) ∧
    (cm.sectorLocations (cm.idFn root) = none →
      cm.subSectorLocations (cm.idFn root) = none →
      ReadSector cm root = Except.error CMErr.notFound) := by
  refine ⟨?_, ?_, ?_, ?_, ?_⟩
  · intro sl h1 h2
    unfold ReadSector
    dsimp only
    rw [h1, h2]
  · intro ssl rest psl h1 h2
    unfold ReadSector
    dsimp only
    rw [h1]
    cases h3 : cm.sectorLocations (cm.idFn root) <;>
      · dsimp only
        rw [h2]
  · intro ssl rest h1 h2
    unfold ReadSector
    dsimp only
    rw [h1]
    cases h3 : cm.sectorLocations (cm.idFn root) <;>
      · dsimp only
        rw [h2]
  · intro h1
    unfold ReadSector
    dsimp only
    rw [h1]
    cases h3 : cm.sectorLocations (cm.idFn root) <;> rfl
  · intro h1 h2
    unfold ReadSector
    dsimp only
    rw [h1, h2]

/-- C5 witness: in cmDual, id 5 has the sub-sector entry
(offset 1, length 2, parent 9) and parent 9 is at folder 0 slot 0, so by
the characterization ReadSector resolves to the parent's range read. -/
theorem readSector_characterization_witness :
    cmDual.subSectorLocations (cmDual.idFn 5) = some [⟨1, 2, 9⟩] ∧
    cmDual.sectorLocations (9 : ℕ) = some ⟨0, 0, 1, ∅⟩ ∧
    ReadSector cmDual 5 = managedReadPartialSector cmDual ⟨0, 0, 1, ∅⟩ 1 2 := by
  refine ⟨by decide, by decide, ?_⟩
  exact (readSector_characterization cmDual 5).2.1 ⟨1, 2, 9⟩ [] ⟨0, 0, 1, ∅⟩
    (by decide) (by decide)

/-! ## C8 -/

/-- The empty contract manager satisfies the sub-sector invariant. -/
theorem cmInv_init (idFn : ℕ → ℕ) (merkleFn : List ℕ → ℕ)
    (folders : ℕ → Option StorageFolder) : CMInv (initCM idFn merkleFn folders) := by
  intro c ssls hc
  cases hc

/-- addSector preserves the sub-sector invariant. -/
theorem cmInv_add (cm : ContractManager) (root folder slot : ℕ) (h : CMInv cm) :
    CMInv (addSector cm root folder slot) := by
  unfold addSector
  dsimp only
  cases hsl : cm.sectorLocations (cm.idFn root) with
  | some sl =>
    dsimp only
    by_cases hcnt : sl.count < 2 ^ 16
    · rw [if_pos hcnt]
      intro c ssls hc
      obtain ⟨hne, hall⟩ := h c ssls hc
      refine ⟨hne, fun ssl hssl => ?_⟩
      obtain ⟨psl, hp1, hp2⟩ := hall ssl hssl
      by_cases hp : ssl.parent = cm.idFn root
      · refine ⟨{ sl with count := sl.count + 1 }, by simp [mapInsert, hp], ?_⟩
        rw [hp, hsl] at hp1
        cases Option.some.inj hp1
        exact hp2
      · exact ⟨psl, by simp [mapInsert, hp, hp1], hp2⟩
    · rw [if_neg hcnt]
      exact h
  | none =>
    dsimp only
    intro c ssls hc
    obtain ⟨hne, hall⟩ := h c ssls hc
    refine ⟨hne, fun ssl hssl => ?_⟩
    obtain ⟨psl, hp1, hp2⟩ := hall ssl hssl
    have hp : ssl.parent ≠ cm.idFn root := by
      intro he
      rw [he, hsl] at hp1
      cases hp1
    exact ⟨psl, by simp [mapInsert, hp, hp1], hp2⟩

/-- SetSubSector preserves the sub-sector invariant. -/
theorem cmInv_setSub (cm : ContractManager) (root offset length : ℕ) (h : CMInv cm) :
    CMInv (SetSubSector cm root offset length).1 := by
  unfold SetSubSector
  dsimp only
  cases hsl : cm.sectorLocations (cm.idFn root) with
  | none => exact h
  | some sl =>
    dsimp only
    cases hread : managedReadPartialSector cm sl offset length with
    | error e => exact h
    | ok data =>
      dsimp only
      intro c ssls hc
      dsimp only at hc ⊢
      by_cases hcs : c = cm.idFn (cm.merkleFn data)
      · rw [hcs] at hc
        rw [show ∀ m v, mapInsert m (cm.idFn (cm.merkleFn data)) v (cm.idFn (cm.merkleFn data)) = some v
              from fun m v => by simp [mapInsert]] at hc
        cases Option.some.inj hc
        constructor
        · simp
        · intro ssl hssl
          rcases List.mem_append.mp hssl with hold | hnew
          · cases hsub : cm.subSectorLocations (cm.idFn (cm.merkleFn data)) with
            | none =>
              rw [hsub] at hold
              cases hold
            | some old =>
              rw [hsub] at hold
              dsimp only [Option.getD] at hold
              obtain ⟨hne, hall⟩ := h _ old hsub
              obtain ⟨psl, hp1, hp2⟩ := hall ssl hold
              by_cases hp : ssl.parent = cm.idFn root
              · refine ⟨{ sl with children := insert (cm.idFn (cm.merkleFn data)) sl.children },
                  by simp [mapInsert, hp], ?_⟩
                rw [hp, hsl] at hp1
                cases Option.some.inj hp1
                rw [← hcs] at hp2 ⊢
                exact Finset.mem_insert_of_mem hp2
              · refine ⟨psl, by simp [mapInsert, hp, hp1], ?_⟩
                rw [hcs]
                exact hp2
          · rw [List.mem_singleton.mp hnew]
            refine ⟨{ sl with children := insert (cm.idFn (cm.merkleFn data)) sl.children },
              by simp [mapInsert], ?_⟩
            rw [hcs]
            exact Finset.mem_insert_self _ _
      · rw [show mapInsert cm.subSectorLocations (cm.idFn (cm.merkleFn data))
              ((cm.subSectorLocations (cm.idFn (cm.merkleFn data))).getD [] ++
                [⟨offset, length, cm.idFn root⟩]) c = cm.subSectorLocations c
            from by simp [mapInsert, hcs]] at hc
        obtain ⟨hne, hall⟩ := h c ssls hc
        refine ⟨hne, fun ssl hssl => ?_⟩
        obtain ⟨psl, hp1, hp2⟩ := hall ssl hssl
        by_cases hp : ssl.parent = cm.idFn root
        · refine ⟨{ sl with children := insert (cm.idFn (cm.merkleFn data)) sl.children },
            by simp [mapInsert, hp], ?_⟩
          rw [hp, hsl] at hp1
          cases Option.some.inj hp1
          exact Finset.mem_insert_of_mem hp2
        · exact ⟨psl, by simp [mapInsert, hp, hp1], hp2⟩

/-- deleteSector preserves the sub-sector invariant. -/
theorem cmInv_delete (cm : ContractManager) (pid : ℕ) (h : CMInv cm) :
    CMInv (deleteSector cm pid) := by
  unfold deleteSector
  dsimp only
  cases hdel : cm.sectorLocations pid with
  | none => exact h
  | some sl =>
    dsimp only
    intro c ssls hc
    dsimp only at hc ⊢
    by_cases hmem : c ∈ sl.children
    · rw [if_pos hmem] at hc
      cases hsub : cm.subSectorLocations c with
      | none =>
        rw [hsub] at hc
        cases hc
      | some old =>
        rw [hsub] at hc
        dsimp only at hc
        by_cases hnil : old.filter (fun ssl => ssl.parent ≠ pid) = []
        · rw [if_pos hnil] at hc
          cases hc
        · rw [if_neg hnil] at hc
          cases Option.some.inj hc
          refine ⟨hnil, fun ssl hssl => ?_⟩
          have hold : ssl ∈ old := List.mem_of_mem_filter hssl
          have hpar : ssl.parent ≠ pid := by simpa using List.of_mem_filter hssl
          obtain ⟨hne, hall⟩ := h c old hsub
          obtain ⟨psl, hp1, hp2⟩ := hall ssl hold
          exact ⟨psl, by simp [mapErase, hpar, hp1], hp2⟩
    · rw [if_neg hmem] at hc
      obtain ⟨hne, hall⟩ := h c ssls hc
      refine ⟨hne, fun ssl hssl => ?_⟩
      obtain ⟨psl, hp1, hp2⟩ := hall ssl hssl
      have hpar : ssl.parent ≠ pid := by
        intro he
        rw [he, hdel] at hp1
        cases Option.some.inj hp1
        exact hmem hp2
      exact ⟨psl, by simp [mapErase, hpar, hp1], hp2⟩

/-- Every contract-manager operation preserves the sub-sector invariant. -/
theorem cmInv_step (cm : ContractManager) (op : CMOp) (h : CMInv cm) :
    CMInv (cmStep cm op) := by
  cases op with
  | addSec root folder slot => exact cmInv_add cm root folder slot h
  | setSub root offset length => exact cmInv_setSub cm root offset length h
  | delSec id => exact cmInv_delete cm id h

/-- Folding any operation sequence from an invariant state stays invariant. -/
theorem cmInv_foldl (ops : List CMOp) :
    ∀ cm, CMInv cm → CMInv (ops.foldl cmStep cm) := by
  induction ops with
  | nil => exact fun cm h => h
  | cons op rest ih => exact fun cm h => ih _ (cmInv_step cm op h)

/-- Under the sub-sector invariant, deleteSector purges every sub-sector
entry referencing the deleted parent, drops emptied child entries, and
removes the parent from the primary map. -/
theorem deleteSector_purges (cm : ContractManager) (pid : ℕ) (h : CMInv cm) :
    (∀ c ssls, (deleteSector cm pid).subSectorLocations c = some ssls →
      ssls ≠ [] ∧ ∀ ssl ∈ ssls, ssl.parent ≠ pid) ∧
    (deleteSector cm pid).sectorLocations pid = none := by
  unfold deleteSector
  dsimp only
  cases hdel : cm.sectorLocations pid with
  | none =>
    constructor
    · intro c ssls hc
      obtain ⟨hne, hall⟩ := h c ssls hc
      refine ⟨hne, fun ssl hssl he => ?_⟩
      obtain ⟨psl, hp1, _⟩ := hall ssl hssl
      rw [he, hdel] at hp1
      cases hp1
    · exact hdel
  | some sl =>
    constructor
    · intro c ssls hc
      dsimp only at hc
      by_cases hmem : c ∈ sl.children
      · rw [if_pos hmem] at hc
        cases hsub : cm.subSectorLocations c with
        | none =>
          rw [hsub] at hc
          cases hc
        | some old =>
          rw [hsub] at hc
          dsimp only at hc
          by_cases hnil : old.filter (fun ssl => ssl.parent ≠ pid) = []
          · rw [if_pos hnil] at hc
            cases hc
          · rw [if_neg hnil] at hc
            cases Option.some.inj hc
            refine ⟨hnil, fun ssl hssl => ?_⟩
            simpa using List.of_mem_filter hssl
      · rw [if_neg hmem] at hc
        obtain ⟨hne, hall⟩ := h c ssls hc
        refine ⟨hne, fun ssl hssl he => ?_⟩
        obtain ⟨psl, hp1, hp2⟩ := hall ssl hssl
        rw [he, hdel] at hp1
        cases Option.some.inj hp1
        exact hmem hp2
    · simp [mapErase]

/-- C8: in every state reachable from the empty contract manager by
addSector (modelled from the spec), SetSubSector and deleteSector calls,
after deleteSector(pid) no entry of the sub-sector map holds a location
whose parent is pid — and no entry holds an empty list, emptied children
having been removed from the map outright — and pid is absent from the
primary sector-location map. -/
theorem delete_sector_purges_children (idFn : ℕ → ℕ) (merkleFn : List ℕ → ℕ)
    (folders : ℕ → Option StorageFolder) (ops : List CMOp) (pid : ℕ) :
    (∀ c ssls,
      (deleteSector (cmExec (initCM idFn merkleFn folders) ops) pid).subSectorLocations c =
        some ssls → ssls ≠ [] ∧ ∀ ssl ∈ ssls, ssl.parent ≠ pid) ∧
    (deleteSector (cmExec (initCM idFn merkleFn folders) ops) pid).sectorLocations pid =
      none :=
  deleteSector_purges _ pid (cmInv_foldl ops _ (cmInv_init idFn merkleFn folders))

/-- C8 witness: deleting parent 1 from exCM leaves child 100 with exactly
the sub-sector location of parent 2 — a non-empty list whose one entry does
not reference parent 1 — and removes 1 from the primary map. -/
theorem delete_sector_purges_children_witness :
    (deleteSector exCM 1).subSectorLocations 100 = some [⟨0, 1, 2⟩] ∧
    ([⟨0, 1, 2⟩] : List SubSectorLocation) ≠ [] ∧
    (⟨0, 1, 2⟩ : SubSectorLocation).parent ≠ 1 ∧
    (deleteSector exCM 1).sectorLocations 1 = none := by
  have h := delete_sector_purges_children (fun n => n) (fun _ => 100) exFolders exOps 1
  have hlook : (deleteSector exCM 1).subSectorLocations 100 = some [⟨0, 1, 2⟩] := by decide
  have h2 := h.1 100 [⟨0, 1, 2⟩] hlook
  exact ⟨hlook, h2.1, h2.2 ⟨0, 1, 2⟩ (List.mem_singleton.mpr rfl), h.2⟩

end Siad
